import Mathlib

/-!
Verification of the go-pathlib path library: a shallow embedding of its
flavor-aware path parser, pure path algebra, symlink resolver and
directory helpers, together with theorems settling the specification
claims.  Go strings are embedded as lists of characters (Go converts to
`[]rune` where character positions matter), Go slices of strings as
`List (List Char)`, and fallible operations as `Except`.
-/

/-- Go strings, embedded as their rune sequences. -/
abbrev PStr := List Char

/-- Convenience conversion from Lean string literals. -/
def chars (s : String) : PStr := s.toList

/-- The condition under which `parseParts` keeps a token: non-empty and not
the single-dot segment (`pp != "" && pp != "."` in the source). -/
def keepTok (t : PStr) : Prop := t ≠ [] ∧ t ≠ ['.']

instance (t : PStr) : Decidable (keepTok t) := by unfold keepTok; infer_instance

/-- Boolean form of `keepTok`, used where Go evaluates the condition. -/
def keepTokB (t : PStr) : Bool := decide (keepTok t)

/-- Single forward scan of `parseParts`'s inner tokenizing loop
(`pure_path.go` lines 89–107): accumulate the current token, emit it at
each separator or at the end, and keep only tokens passing `keepTok`.
The accumulator holds the current token's characters in reverse. -/
def goTokensGo (c : Char) : PStr → PStr → List PStr
  | [], cur => if keepTok cur.reverse then [cur.reverse] else []
  | x :: xs, cur =>
      if x = c then
        (if keepTok cur.reverse then [cur.reverse] else []) ++ goTokensGo c xs []
      else
        goTokensGo c xs (x :: cur)

/-- The tokenization `parseParts` applies to the relative remainder of each
input: split on the separator, discarding empty and single-dot tokens. -/
def goTokens (c : Char) (s : PStr) : List PStr := goTokensGo c s []

/-- Straightforward split of a string on a separator character (the
specification's notion of tokenizing the remainder on the separator). -/
def splitOnSep (c : Char) : PStr → List PStr
  | [] => [[]]
  | x :: xs =>
      if x = c then [] :: splitOnSep c xs
      else
        match splitOnSep c xs with
        | [] => [[x]]
        | t :: ts => (x :: t) :: ts

/-- The specification's tokenization: split on the separator, then discard
empty tokens and single-dot tokens. -/
def specTokenize (c : Char) (s : PStr) : List PStr :=
  (splitOnSep c s).filter keepTokB

/-- POSIX `SplitRoot` (`flavor.go` lines 60–69): a leading separator run of
exactly two is preserved as the doubled root, any other run collapses to a
single separator. -/
def posixSplitRoot (path : PStr) : PStr × PStr × PStr :=
  if path.headD ' ' = '/' ∧ path ≠ [] then
    let stripped := path.dropWhile (fun c => c = '/')
    if path.length - stripped.length = 2 then ([], ['/', '/'], stripped)
    else ([], ['/'], stripped)
  else ([], [], path)

/-- The Windows drive letters accepted before a colon (`flavor.go` line 90). -/
def winDriveLetters : PStr := chars "abcdefghijklmnopqrstuvwxyzABCDEFGHIJKLMNOPQRSTUVWXYZ"

/-- `utf8.RuneError`, the stand-in rune used when the path is too short. -/
def runeError : Char := '\uFFFD'

/-- Index of the first occurrence of a character in a string. -/
def strIndex (c : Char) : PStr → Option Nat
  | [] => none
  | x :: xs => if x = c then some 0 else (strIndex c xs).map (· + 1)

/-- `runesIndexOffset` (`flavor.go` lines 204–217): searches for `r` from
`offset` on.  Note the guard compares against `len(runes)-1` and the final
`return idx + offset` yields `offset - 1` (not `-1`) when nothing is found. -/
def runesIndexOffset (runes : PStr) (r : Char) (offset : Int) : Int :=
  if offset ≥ (runes.length : Int) - 1 then -1
  else
    match strIndex r (runes.drop offset.toNat) with
    | some i => (i : Int) + offset
    | none => -1 + offset

/-- Windows `SplitRoot` (`flavor.go` lines 118–189): extended-length prefix
handling, the UNC branch, then drive-letter and root extraction.  The UNC
branch's early `return`s are modelled by the `Option`; falling through it
continues with the drive-letter logic. -/
def winSplitRoot (path0 : PStr) : PStr × PStr × PStr :=
  let sep : Char := '\\'
  let extPair : PStr × PStr :=
    if path0.take 4 = chars "\\\\?\\" then
      if (path0.drop 4).take 4 = chars "UNC\\" then (path0.take 7, '\\' :: path0.drop 7)
      else (path0.take 4, path0.drop 4)
    else ([], path0)
  let pfx := extPair.1
  let runes := extPair.2
  let first := runes.getD 0 runeError
  let second := runes.getD 1 runeError
  let third := runes.getD 2 runeError
  let uncBranch : Option (PStr × PStr × PStr) :=
    if second = sep ∧ first = sep ∧ third ≠ sep then
      let index := runesIndexOffset runes sep 2
      if index ≠ -1 then
        let index2 := runesIndexOffset runes sep (index + 1)
        if index2 ≠ index + 1 then
          let index2 := if index2 = -1 then (runes.length : Int) else index2
          let p := if index2 + 1 ≤ (runes.length : Int) then runes.drop (index2 + 1).toNat else []
          if pfx ≠ [] then some (pfx ++ (runes.take index2.toNat).drop 1, [sep], p)
          else some (runes.take index2.toNat, [sep], p)
        else none
      else none
    else none
  match uncBranch with
  | some r => r
  | none =>
      let hasDrv := second = ':' ∧ first ∈ winDriveLetters
      let drv := if hasDrv then runes.take 2 else []
      let runes1 := if hasDrv then runes.drop 2 else runes
      let first1 := if hasDrv then third else first
      if first1 = sep then (pfx ++ drv, [sep], runes1.dropWhile (fun c => c = sep))
      else (pfx ++ drv, [], runes1)

/-- The two path flavors. -/
inductive Flavor where
  | posix
  | windows
deriving DecidableEq, Repr

/-- `Separator()`. -/
def Flavor.sep : Flavor → Char
  | .posix => '/'
  | .windows => '\\'

/-- `AltSeparator()` (empty for POSIX, `/` for Windows). -/
def Flavor.altSep : Flavor → Option Char
  | .posix => none
  | .windows => some '/'

/-- `HasDrive()`. -/
def Flavor.hasDrive : Flavor → Bool
  | .posix => false
  | .windows => true

/-- `SplitRoot`. -/
def Flavor.splitRoot : Flavor → PStr → PStr × PStr × PStr
  | .posix => posixSplitRoot
  | .windows => winSplitRoot

/-- `Casefold` (identity for POSIX, `strings.ToLower` for Windows; the
paths under study are ASCII, where `Char.toLower` agrees with Go). -/
def Flavor.casefold : Flavor → PStr → PStr
  | .posix => fun s => s
  | .windows => fun s => s.map Char.toLower

/-- The value computed by `CasefoldParts` (`flavor.go` lines 197–202); for
the Windows flavor the source writes it in place into the argument slice. -/
def Flavor.casefoldParts : Flavor → List PStr → List PStr
  | .posix => fun parts => parts
  | .windows => fun parts => parts.map (fun s => s.map Char.toLower)

/-- The separator-substitution `parseParts` applies to each input before
`SplitRoot` (`strings.Replace` of the alternative separator, guarded by
`AltSeparator() != ""`). -/
def substAlt (f : Flavor) (s : PStr) : PStr :=
  match f.altSep with
  | none => s
  | some a => s.map (fun c => if c = a then f.sep else c)

/-- The `(drive, root, parts)` triple accumulated by `parseParts`. -/
structure ParseAcc where
  drive : PStr
  root : PStr
  parts : List PStr
deriving DecidableEq, Repr

/-- One iteration of `parseParts`'s outer loop (`pure_path.go` lines
68–108): skip empty inputs, substitute the alternative separator, split
off drive and root, re-anchor when the input supplies a drive or a root,
then append the tokens of the remainder. -/
def parsePartsStep (f : Flavor) (acc : ParseAcc) (part : PStr) : ParseAcc :=
  if part = [] then acc
  else
    let part := substAlt f part
    let pd := (f.splitRoot part).1
    let pr := (f.splitRoot part).2.1
    let prel := (f.splitRoot part).2.2
    let acc1 : ParseAcc :=
      if pd ≠ [] then ⟨pd, pr, [pd ++ pr]⟩
      else if pr ≠ [] then ⟨acc.drive, pr, [acc.drive ++ pr]⟩
      else acc
    ⟨acc1.drive, acc1.root, acc1.parts ++ goTokens f.sep prel⟩

/-- `parseParts` (`pure_path.go` lines 66–110). -/
def parseParts (f : Flavor) (paths : List PStr) : ParseAcc :=
  paths.foldl (parsePartsStep f) ⟨[], [], []⟩

/-- `PurePath`: the normalized representation plus its flavor. -/
structure PurePath where
  flavor : Flavor
  drive : PStr
  root : PStr
  parts : List PStr
deriving DecidableEq, Repr

/-- `newPurePathWithFlavor`: parse the inputs under the given flavor. -/
def parsePure (f : Flavor) (paths : List PStr) : PurePath :=
  let a := parseParts f paths
  ⟨f, a.drive, a.root, a.parts⟩

/-- `strings.Join` of parts with the flavor separator. -/
def joinSep (c : Char) : List PStr → PStr
  | [] => []
  | [t] => t
  | t :: ts => t ++ c :: joinSep c ts

/-- `PurePath.String` (`pure_path.go` lines 437–445). -/
def PurePath.str (p : PurePath) : PStr :=
  if p.drive ≠ [] ∨ p.root ≠ [] then p.drive ++ p.root ++ joinSep p.flavor.sep p.parts.tail
  else if p.parts = [] then ['.']
  else joinSep p.flavor.sep p.parts


/-- `strings.LastIndex` for a single character: byte index of the last
occurrence, `-1` when absent. -/
def strLastIndex (c : Char) (s : PStr) : Int :=
  match strIndex c s.reverse with
  | none => -1
  | some i => (s.length : Int) - 1 - (i : Int)

/-- `PurePath.Name` (`pure_path.go` lines 144–150). -/
def PurePath.name (p : PurePath) : PStr :=
  if p.parts = [] ∨ ((p.drive ≠ [] ∨ p.root ≠ []) ∧ p.parts.length = 1) then []
  else p.parts.getLastD []

/-- `PurePath.Suffix` (`pure_path.go` lines 154–161). -/
def PurePath.suffix (p : PurePath) : PStr :=
  let n := p.name
  let i := strLastIndex '.' n
  if 0 < i ∧ i < (n.length : Int) - 1 then n.drop i.toNat else []

/-- `PurePath.Stem` (`pure_path.go` lines 182–189). -/
def PurePath.stem (p : PurePath) : PStr :=
  let n := p.name
  let i := strLastIndex '.' n
  if 0 < i ∧ i < (n.length : Int) - 1 then n.take i.toNat else n

/-- The `absParts` sequence `RelativeTo` builds for a path: drive and root
as separate leading elements when the path has a root, otherwise the bare
parts (`pure_path.go` lines 299–307). -/
def PurePath.absParts (p : PurePath) : List PStr :=
  if p.root ≠ [] then p.drive :: p.root :: p.parts.tail else p.parts

instance {ε α : Type} [DecidableEq ε] [DecidableEq α] : DecidableEq (Except ε α) := fun a b =>
  match a, b with
  | .error x, .error y =>
      if h : x = y then .isTrue (by rw [h]) else .isFalse (fun hc => by cases hc; exact h rfl)
  | .ok x, .ok y =>
      if h : x = y then .isTrue (by rw [h]) else .isFalse (fun hc => by cases hc; exact h rfl)
  | .error x, .ok y => .isFalse (fun hc => by cases hc)
  | .ok x, .error y => .isFalse (fun hc => by cases hc)

/-- Errors of the pure algebra operations. -/
inductive RelErr where
  | noOther
  | notRelative
deriving DecidableEq, Repr

/-- The `casefoldComp` closure of `RelativeTo` (`pure_path.go` lines
321–335): truncate to the candidate's length and compare case-folded. -/
def casefoldComp (f : Flavor) (tp op : List PStr) : Bool :=
  if op.length > tp.length then false
  else f.casefoldParts (tp.take op.length) == f.casefoldParts op

/-- `PurePath.RelativeTo` (`pure_path.go` lines 294–348).  The in-place
case-folding `casefoldComp` performs on the receiver's slice for the
Windows flavor touches only the compared prefix and never the returned
suffix, so the returned value is as computed here. -/
def PurePath.relativeTo (p : PurePath) (others : List PStr) : Except RelErr PurePath :=
  if others = [] then .error .noOther
  else
    let absP := p.absParts
    let toPath := parsePure p.flavor others
    let toAbs := toPath.absParts
    let n := toAbs.length
    let rootRes := if n ≠ 1 then [] else p.root
    if n = 0 then
      if p.drive ≠ [] ∨ p.root ≠ [] then .error .notRelative
      else .ok ⟨p.flavor, [], rootRes, absP.drop n⟩
    else if ¬ casefoldComp p.flavor absP toAbs then .error .notRelative
    else .ok ⟨p.flavor, [], rootRes, absP.drop n⟩

/-- Modelled from the spec: the glob matcher of the Go standard library's
`path/filepath.Match`, which is external to this repository.  Standard
single-segment semantics: `*` matches any run, `?` any one character,
`[...]` a character class with ranges and `^` negation; a malformed
pattern is an error in Go, which `Match` treats exactly like a
non-match, so both are collapsed to `false` here. -/
def scanClass : PStr → Option (List (Char × Char) × PStr)
  | [] => none
  | ']' :: rest => some ([], rest)
  | lo :: '-' :: hi :: rest =>
      if hi = ']' then none
      else (scanClass rest).map (fun p => ((lo, hi) :: p.1, p.2))
  | c :: rest => (scanClass rest).map (fun p => ((c, c) :: p.1, p.2))

/-- Modelled from the spec: segment-level glob evaluation (see
`scanClass`). -/
def globMatch : PStr → PStr → Bool
  | [], [] => true
  | [], _ :: _ => false
  | '*' :: ps, s =>
      globMatch ps s ||
        (match s with
         | [] => false
         | _ :: s1 => globMatch ('*' :: ps) s1)
  | '?' :: _, [] => false
  | '?' :: ps, _ :: s => globMatch ps s
  | '[' :: _, [] => false
  | '[' :: ps, c :: s =>
      let negPair : Bool × PStr :=
        match ps with
        | '^' :: t => (true, t)
        | _ => (false, ps)
      (match scanClass negPair.2 with
       | none => false
       | some (rs, rem) =>
           (rs.any (fun r => decide (r.1 ≤ c ∧ c ≤ r.2)) != negPair.1) && globMatch rem s)
  | _ :: _, [] => false
  | a :: ps, b :: s => a == b && globMatch ps s
termination_by p s => (s.length, p.length)

/-- The right-aligned segment loop of `Match` (`pure_path.go` lines
417–427): pattern segments are compared against the trailing segments of
the path, last first. -/
def matchLoop (pats parts : List PStr) : Bool :=
  (pats.reverse.zip parts.reverse).all fun pr => globMatch pr.1 pr.2

/-- `PurePath.Match` (`pure_path.go` lines 395–428) in state-passing form:
the second component is the receiver as observable after the call.
`windowsFlavor.CasefoldParts` lower-cases its argument slice in place,
and `Match` passes it the receiver's own `parts` slice, so once control
reaches that call the receiver's parts are overwritten with their
case-folded forms. -/
def PurePath.matchSt (p : PurePath) (pattern : PStr) : Bool × PurePath :=
  let cf := p.flavor.casefold
  let a := parseParts p.flavor [cf pattern]
  if a.parts = [] then (false, p)
  else if a.drive ≠ [] ∧ a.drive ≠ cf p.drive then (false, p)
  else if a.root ≠ [] ∧ a.root ≠ cf p.root then (false, p)
  else
    let parts := p.flavor.casefoldParts p.parts
    let p1 : PurePath := { p with parts := parts }
    if a.drive ≠ [] ∨ a.root ≠ [] then
      if a.parts.length ≠ parts.length then (false, p1)
      else (matchLoop (a.parts.drop 1) parts, p1)
    else if a.parts.length > parts.length then (false, p1)
    else (matchLoop a.parts parts, p1)

/-- `PurePath.IsAbsolute` (`pure_path.go` lines 387–392). -/
def PurePath.isAbs (p : PurePath) : Bool :=
  if p.root = [] then false
  else !p.flavor.hasDrive || !p.drive.isEmpty

/-- `PurePath.Join` (`pure_path.go` lines 241–246): re-parse the current
string representation together with the extra inputs. -/
def PurePath.join (p : PurePath) (paths : List PStr) : PurePath :=
  parsePure p.flavor (p.str :: paths)

/-- `PurePath.Parent` (`pure_path.go` lines 258–271). -/
def PurePath.parent (p : PurePath) : PurePath :=
  if p.parts = [] then ⟨p.flavor, [], [], []⟩
  else if p.parts.length = 1 ∧ (p.drive ≠ [] ∨ p.root ≠ []) then p
  else ⟨p.flavor, p.drive, p.root, p.parts.dropLast⟩

/-- Errors surfaced by the I/O-bound operations: the distinct
capability-unsupported error (`ErrDoesNotImplement`, wrapped by
`doesNotImplementErr`) and an ordinary I/O failure. -/
inductive FsErr where
  | doesNotImplement
  | ioError
deriving DecidableEq, Repr

/-- The filesystem collaborator as consumed by the resolver: capability
flags for `afero.Lstater` and `afero.LinkReader`, plus the observable
behaviour of each call, keyed by the path's string form.  The modelled
collaborator always reports `lstatCalled = true` when the capability is
present (as `afero.OsFs` does). -/
structure FsModel where
  hasLstater : Bool
  hasLinkReader : Bool
  lstatSym : PStr → Except FsErr Bool
  readlink : PStr → Except FsErr PStr

/-- `Path.Lstat` followed by the symlink-mode test of `Path.IsSymlink`
(`path.go` lines 491–501 and 549–555): the capability check precedes any
call into the collaborator. -/
def isSymlinkM (fs : FsModel) (p : PurePath) : Except FsErr Bool :=
  if fs.hasLstater then fs.lstatSym p.str else .error .doesNotImplement

/-- `Path.Readlink` (`path.go` lines 422–433): capability check, then the
link read, then `copyPathWithPaths` re-parses the target string. -/
def readlinkM (fs : FsModel) (p : PurePath) : Except FsErr PurePath :=
  if fs.hasLinkReader then (fs.readlink p.str).map (fun t => parsePure p.flavor [t])
  else .error .doesNotImplement

/-- `resolveIfSymlink` (`path.go` lines 435–449): returns the possibly
resolved path, the symlink flag, and the error slot. -/
def resolveIfSymlink (fs : FsModel) (path : PurePath) : PurePath × Bool × Option FsErr :=
  match isSymlinkM fs path with
  | .error e => (path, false, some e)
  | .ok false => (path, false, none)
  | .ok true =>
      match readlinkM fs path with
      | .error e => (path, true, some e)
      | .ok resolved => (resolved, true, none)

/-- Outcome of one pass of `resolveAllHelper`'s component scan. -/
inductive ScanOut where
  | err (e : FsErr)
  | recurseOn (next : PurePath)
  | clean
deriving DecidableEq, Repr

/-- The component scan of `resolveAllHelper` (`path.go` lines 454–470):
`done` holds `parts[:i]` and `rem` the remaining components, so each
iteration examines the prefix `parts[:i+1]` (re-parsed by
`copyPathWithPaths`) and carries the suffix `parts[i+1:]`. -/
def scanParts (fs : FsModel) (path : PurePath) (done : List PStr) : List PStr → ScanOut
  | [] => .clean
  | x :: rest =>
      let upTo := done ++ [x]
      let componentPath := parsePure path.flavor upTo
      match resolveIfSymlink fs componentPath with
      | (_, _, some e) => .err e
      | (resolved, true, none) =>
          if resolved.isAbs then .recurseOn (resolved.join rest)
          else .recurseOn ((componentPath.parent.join [resolved.str]).join rest)
      | (_, false, none) => scanParts fs path upTo rest

/-- `resolveAllHelper` / `Path.ResolveAll` (`path.go` lines 451–484),
with explicit fuel for the unbounded recursion on symlink targets;
`none` means the fuel ran out.  On an error the pair returned is the
current invocation's argument together with that error. -/
def resolveAll (fs : FsModel) : Nat → PurePath → Option (PurePath × Option FsErr)
  | 0, _ => none
  | fuel + 1, path =>
      match scanParts fs path [] path.parts with
      | .err e => some (path, some e)
      | .clean => some (path, none)
      | .recurseOn next => resolveAll fs fuel next

/-- `ErrDirectoryEmpty`, the error of `Path.GetLatest` on an empty
listing. -/
inductive DirErr where
  | directoryEmpty
deriving DecidableEq, Repr

/-- `Path.GetLatest` (`path.go` lines 588–618) over an abstract directory
listing and modification-time view: empty listings fail with
`ErrDirectoryEmpty`; otherwise the entry of index 0 seeds the scan and
the loop `for i := 1; i < len(files)-1; i++` visits the entries of
indices `1 … len-2`, replacing the candidate whenever a strictly later
modification time is seen (`thisMtime.After(greatestMtime)`). -/
def getLatest (mtime : PStr → Int) (names : List PStr) : Except DirErr PStr :=
  match names with
  | [] => .error .directoryEmpty
  | f0 :: rest =>
      .ok (rest.dropLast.foldl (fun g x => if mtime g < mtime x then x else g) f0)

/-- One parsing step as the specification words it: substitute the
alternative separator, split off the candidate drive and root, re-anchor
on a non-empty drive (discarding everything), re-anchor on a root alone
(keeping the drive), and append the surviving tokens of the remainder,
where tokenizing is a plain split on the separator followed by dropping
empty and single-dot tokens. -/
def specStep (f : Flavor) (acc : ParseAcc) (part : PStr) : ParseAcc :=
  let part := substAlt f part
  let pd := (f.splitRoot part).1
  let pr := (f.splitRoot part).2.1
  let toks := specTokenize f.sep (f.splitRoot part).2.2
  if pd ≠ [] then ⟨pd, pr, (pd ++ pr) :: toks⟩
  else if pr ≠ [] then ⟨acc.drive, pr, (acc.drive ++ pr) :: toks⟩
  else ⟨acc.drive, acc.root, acc.parts ++ toks⟩

/-- The specification's well-formedness condition on a drive: empty, a
two-character drive-letter form, or a UNC/extended-length prefix — every
such prefix begins with two separators. -/
def specDriveOk (sep : Char) (d : PStr) : Prop :=
  d = [] ∨
  (d.length = 2 ∧ d.getD 1 ' ' = ':' ∧ d.getD 0 ' ' ∈ winDriveLetters) ∨
  d.take 2 = [sep, sep]

instance (sep : Char) (d : PStr) : Decidable (specDriveOk sep d) := by
  unfold specDriveOk; infer_instance

/-- Case-folded sequence-prefix relation used by the specification's
description of `RelativeTo`. -/
def cfPfx (f : Flavor) (op tp : List PStr) : Prop :=
  ∃ zs, f.casefoldParts op ++ zs = f.casefoldParts tp

/-- Helper relating the scanning accumulator to the plain split: prepend
the accumulated characters onto the first token. -/
def consAcc (a : PStr) : List PStr → List PStr
  | [] => [a]
  | t :: ts => (a ++ t) :: ts

/-- The invariant the POSIX parser maintains: no drive; either no root
and all parts are plain tokens, or a one- or two-separator root that is
also the head of `parts`, with plain tokens after it. -/
def PosixAcc (a : ParseAcc) : Prop :=
  a.drive = [] ∧
  ((a.root = [] ∧ ∀ t ∈ a.parts, keepTok t ∧ '/' ∉ t) ∨
   ((a.root = ['/'] ∨ a.root = ['/', '/']) ∧
     ∃ rest, a.parts = a.root :: rest ∧ ∀ t ∈ rest, keepTok t ∧ '/' ∉ t))

/-- Modification times for the `GetLatest` scenario: entry `b` is strictly
newer than entry `a`. -/
def mtimeEx : PStr → Int := fun s => if s = chars "b" then 1 else 0

/-- The filesystem collaborator for the `ResolveAll` scenario: `a` is a
symlink to `b`, `b` is a plain directory, and `lstat` on `b/c` fails
with an ordinary I/O error.  Both capabilities are present. -/
def fsLinkThenIoErr : FsModel := {
  hasLstater := true
  hasLinkReader := true
  lstatSym := fun s =>
    if s = chars "a" then .ok true
    else if s = chars "b" then .ok false
    else if s = chars "b/c" then .error .ioError
    else .ok false
  readlink := fun s => if s = chars "a" then .ok (chars "b") else .error .ioError }

/-- The same collaborator with the `afero.Lstater` capability absent. -/
def fsNoLstat : FsModel := { fsLinkThenIoErr with hasLstater := false }

example : parseParts .posix [chars "a", chars "b//c", chars "d"] =
    ⟨[], [], [chars "a", chars "b", chars "c", chars "d"]⟩ := by decide

example : parseParts .posix [chars "//a", chars "b"] =
    ⟨[], chars "//", [chars "//", chars "a", chars "b"]⟩ := by decide

example : parseParts .windows [chars "//?/UNC/b/c/d"] =
    ⟨chars "\\\\?\\UNC\\b\\c", chars "\\", [chars "\\\\?\\UNC\\b\\c\\", chars "d"]⟩ := by decide

example : parseParts .windows [chars "a", chars "Z:/b", chars "c"] =
    ⟨chars "Z:", chars "\\", [chars "Z:\\", chars "b", chars "c"]⟩ := by decide

/-- `splitOnSep` never returns the empty list. -/
theorem splitOnSep_ne_nil (c : Char) (s : PStr) : splitOnSep c s ≠ [] := by
  match s with
  | [] => simp [splitOnSep]
  | x :: xs =>
      rw [splitOnSep]
      split
      · simp
      · cases h : splitOnSep c xs <;> simp


theorem goTokensGo_eq (c : Char) (s : PStr) :
    ∀ cur : PStr, goTokensGo c s cur =
      List.filter keepTokB (consAcc cur.reverse (splitOnSep c s)) := by
  induction s with
  | nil =>
      intro cur
      simp only [goTokensGo, splitOnSep, consAcc, List.append_nil, List.filter]
      by_cases h : keepTok cur.reverse <;> simp [h, keepTokB]
  | cons x xs ih =>
      intro cur
      rw [goTokensGo, splitOnSep]
      by_cases hx : x = c
      · simp only [hx, if_pos rfl, ih, consAcc, List.filter_cons]
        have hne := splitOnSep_ne_nil c xs
        cases hs : splitOnSep c xs with
        | nil => exact absurd hs hne
        | cons t ts =>
            simp only [consAcc, List.nil_append]
            by_cases h : keepTok cur.reverse <;>
              simp [keepTokB, h, List.filter_cons]
      · simp only [if_neg hx, ih, consAcc]
        have hne := splitOnSep_ne_nil c xs
        cases hs : splitOnSep c xs with
        | nil => exact absurd hs hne
        | cons t ts =>
            simp [consAcc, List.reverse_cons, List.append_assoc]

/-- The source's tokenizing loop computes exactly the specification's
split-then-filter tokenization. -/
theorem goTokens_eq_specTokenize (c : Char) (s : PStr) :
    goTokens c s = specTokenize c s := by
  rw [goTokens, specTokenize, goTokensGo_eq]
  have hne := splitOnSep_ne_nil c s
  cases hs : splitOnSep c s with
  | nil => exact absurd hs hne
  | cons t ts => simp [consAcc]

/-- Splitting the root of the (substituted) empty input yields nothing. -/
theorem splitRoot_substAlt_nil (f : Flavor) : f.splitRoot (substAlt f []) = ([], [], []) := by
  cases f <;> rfl

/-- A single source iteration agrees with the specification's step. -/
theorem parsePartsStep_eq_specStep (f : Flavor) (acc : ParseAcc) (part : PStr) :
    parsePartsStep f acc part = specStep f acc part := by
  by_cases hp : part = []
  · subst hp
    rw [parsePartsStep, specStep]
    simp only [splitRoot_substAlt_nil, if_pos rfl]
    simp [specTokenize, splitOnSep, List.filter, keepTokB, keepTok]
  · rw [parsePartsStep, specStep, if_neg hp]
    simp only [goTokens_eq_specTokenize]
    by_cases h1 : (f.splitRoot (substAlt f part)).1 ≠ []
    · simp [h1]
    · by_cases h2 : (f.splitRoot (substAlt f part)).2.1 ≠ [] <;> simp [h1, h2]

/-- C1: for every ordered sequence of input strings and either flavor,
`parseParts` processes the inputs left to right, and on each input:
a non-empty candidate drive discards all accumulated parts and resets
drive and root, re-seeding the parts with the single anchor string
`drive ++ root`; an empty drive with a non-empty root keeps the
accumulated drive, resets the root, and re-seeds the parts the same way;
and in every case the remainder is tokenized on the separator, with
empty and single-dot tokens discarded and the survivors appended. -/
theorem parseParts_processes_inputs_as_specified (f : Flavor) (inputs : List PStr) :
    parseParts f inputs = inputs.foldl (specStep f) ⟨[], [], []⟩ := by
  rw [parseParts]
  have hfun : parsePartsStep f = specStep f :=
    funext fun acc => funext fun part => parsePartsStep_eq_specStep f acc part
  rw [hfun]

/-- C2 counterexample: with the Windows flavor and inputs
`["Z:/a", "/b", "c"]`, the later input `"/b"` is anchored (its split
yields an empty drive and a non-empty root), yet the parser's final
drive is the earlier `"Z:"` rather than the later input's empty drive. -/
theorem laterRootOnlyInput_keepsEarlierDrive_counterexample :
    Flavor.windows.splitRoot (substAlt .windows (chars "/b")) = ([], ['\\'], chars "b") ∧
    parseParts .windows [chars "Z:/a", chars "/b", chars "c"] =
      ⟨chars "Z:", ['\\'], [chars "Z:\\", chars "b", chars "c"]⟩ ∧
    chars "Z:" ≠ [] := by decide

/-- A step whose input supplies a root but no drive keeps the
accumulated drive and re-anchors parts. -/
theorem parseStep_rootOnly_aux (f : Flavor) (acc : ParseAcc) (s : PStr)
    (h1 : (f.splitRoot (substAlt f s)).1 = [])
    (h2 : (f.splitRoot (substAlt f s)).2.1 ≠ []) :
    parsePartsStep f acc s =
      ⟨acc.drive, (f.splitRoot (substAlt f s)).2.1,
        (acc.drive ++ (f.splitRoot (substAlt f s)).2.1) ::
          goTokens f.sep (f.splitRoot (substAlt f s)).2.2⟩ := by
  have hs : s ≠ [] := by
    intro h
    rw [h, splitRoot_substAlt_nil] at h2
    exact h2 rfl
  rw [parsePartsStep, if_neg hs]
  simp [h1, h2]

/-- C2 amended: when a later input's split yields an empty drive but a
non-empty root, the parser keeps the previously accumulated drive —
re-seeding the parts with `accumulated-drive ++ new-root` — rather than
taking the later input's empty drive; only an input with a non-empty
drive replaces the accumulated drive. -/
theorem parseStep_rootOnly_keeps_accumulated_drive (f : Flavor) (acc : ParseAcc) (s : PStr)
    (h1 : (f.splitRoot (substAlt f s)).1 = [])
    (h2 : (f.splitRoot (substAlt f s)).2.1 ≠ []) :
    parsePartsStep f acc s =
      ⟨acc.drive, (f.splitRoot (substAlt f s)).2.1,
        (acc.drive ++ (f.splitRoot (substAlt f s)).2.1) ::
          goTokens f.sep (f.splitRoot (substAlt f s)).2.2⟩ :=
  parseStep_rootOnly_aux f acc s h1 h2

/-- Witness for `parseStep_rootOnly_keeps_accumulated_drive` at the
Windows flavor, an accumulated `Z:` anchor, and the input `"/b"`. -/
theorem parseStep_rootOnly_keeps_accumulated_drive_witness :
    (Flavor.windows.splitRoot (substAlt .windows (chars "/b"))).1 = [] ∧
    (Flavor.windows.splitRoot (substAlt .windows (chars "/b"))).2.1 ≠ [] ∧
    parsePartsStep .windows ⟨chars "Z:", ['\\'], [chars "Z:\\", chars "a"]⟩ (chars "/b") =
      ⟨chars "Z:", (Flavor.windows.splitRoot (substAlt .windows (chars "/b"))).2.1,
        (chars "Z:" ++ (Flavor.windows.splitRoot (substAlt .windows (chars "/b"))).2.1) ::
          goTokens Flavor.windows.sep (Flavor.windows.splitRoot (substAlt .windows (chars "/b"))).2.2⟩ :=
  ⟨by decide, by decide,
    parseStep_rootOnly_keeps_accumulated_drive .windows
      ⟨chars "Z:", ['\\'], [chars "Z:\\", chars "a"]⟩ (chars "/b") (by decide) (by decide)⟩

/-- C3: the POSIX flavor indeed never produces a drive, but the Windows
`SplitRoot` violates the stated shape of drives: on `\\ab` it produces
the single-separator drive `\`, which is neither empty, nor a
drive-letter pair, nor a two-separator UNC/extended prefix.  The cause
is `runesIndexOffset` returning `offset - 1` instead of `-1` when no
separator is found at or after `offset`, so the UNC branch splits at a
bogus index. -/
theorem splitRoot_drive_shape_violated :
    (∀ s : PStr, (Flavor.posix.splitRoot s).1 = []) ∧
    winSplitRoot (chars "\\\\ab") = (['\\'], ['\\'], chars "ab") ∧
    ¬ specDriveOk '\\' ['\\'] ∧
    runesIndexOffset (chars "\\\\ab") '\\' 2 = 1 := by
  refine ⟨fun s => ?_, by decide, by decide, by decide⟩
  show (posixSplitRoot s).1 = []
  simp only [posixSplitRoot]
  split_ifs <;> rfl

/-- C9: for every `PurePath`, the stem concatenated with the suffix is
exactly the name, whatever the position of the last dot. -/
theorem stem_append_suffix_eq_name (p : PurePath) : p.stem ++ p.suffix = p.name := by
  simp only [PurePath.stem, PurePath.suffix]
  by_cases h :
      0 < strLastIndex '.' p.name ∧ strLastIndex '.' p.name < (p.name.length : Int) - 1
  · simp only [if_pos h]
    exact List.take_append_drop _ _
  · simp [if_neg h]

/-- C10: whenever the (case-folded) pattern parses to zero parts, `Match`
returns false without reaching the glob loop. -/
theorem match_false_on_empty_pattern_parts (p : PurePath) (pattern : PStr)
    (h : (parseParts p.flavor [p.flavor.casefold pattern]).parts = []) :
    (p.matchSt pattern).1 = false := by
  simp [PurePath.matchSt, h]

/-- Witness for `match_false_on_empty_pattern_parts`: the single-dot
pattern parses to zero parts and never matches. -/
theorem match_false_on_empty_pattern_parts_witness :
    (parseParts (parsePure .posix [chars "a"]).flavor
        [(parsePure .posix [chars "a"]).flavor.casefold (chars ".")]).parts = [] ∧
    ((parsePure .posix [chars "a"]).matchSt (chars ".")).1 = false :=
  ⟨by decide, match_false_on_empty_pattern_parts (parsePure .posix [chars "a"]) (chars ".") (by decide)⟩

/-- C5: `Match` on a Windows-flavored path mutates its receiver: the
receiver's parts are overwritten with their lower-cased forms because
`windowsFlavor.CasefoldParts` writes into the receiver's own slice.
Here `NewPureWindowsPath("C:/").Match("/")` returns true and leaves the
receiver with parts `["c:\"]` instead of the original `["C:\"]`. -/
theorem match_mutates_windows_receiver :
    (parsePure .windows [chars "C:/"]).parts = [chars "C:\\"] ∧
    (parsePure .windows [chars "C:/"]).matchSt (chars "/") =
      (true, ⟨.windows, chars "C:", ['\\'], [chars "c:\\"]⟩) ∧
    chars "c:\\" ≠ chars "C:\\" := by decide

/-- C7 counterexample: for the Windows flavor, re-parsing the string form
of the parsed input `//a/` does not reproduce the parse: the first parse
yields the trailing-separator drive `\\a\`, whose stringification
`\\a\\` re-parses to the drive `\\a\\`. -/
theorem windows_roundtrip_counterexample :
    parsePure .windows [(parsePure .windows [chars "//a/"]).str] ≠
      parsePure .windows [chars "//a/"] := by decide


/-- C8: `GetLatest` fails with the empty-directory error exactly on the
empty listing, but on the listing `[a, b]` it returns `a` even though
`b` has the strictly greater modification time: the scan loop stops at
`len(files)-1` and never examines the last listed entry, contradicting
the function's own documentation ("returns the file or directory that
has the most recent mtime"). -/
theorem getLatest_misses_last_entry :
    getLatest mtimeEx [chars "a", chars "b"] = .ok (chars "a") ∧
    mtimeEx (chars "a") < mtimeEx (chars "b") ∧
    getLatest mtimeEx [] = .error .directoryEmpty := by decide


/-- C6: when the collaborator lacks the lstat capability, `ResolveAll`
fails with the distinct capability-unsupported error and returns the
original path; but when an I/O error strikes after a symlink has already
been substituted, the path returned alongside the error is the partially
resolved `b/c`, not the original `a/c` — contradicting the claim (and
the function's own comment) that the path is returned unchanged on
errors. -/
theorem resolveAll_error_path_not_original :
    resolveAll fsLinkThenIoErr 10 (parsePure .posix [chars "a/c"]) =
      some (parsePure .posix [chars "b/c"], some .ioError) ∧
    parsePure .posix [chars "b/c"] ≠ parsePure .posix [chars "a/c"] ∧
    resolveAll fsNoLstat 10 (parsePure .posix [chars "a/c"]) =
      some (parsePure .posix [chars "a/c"], some .doesNotImplement) := by decide

/-- Case-folding parts commutes with `take`. -/
theorem casefoldParts_take (f : Flavor) (l : List PStr) (n : Nat) :
    f.casefoldParts (l.take n) = (f.casefoldParts l).take n := by
  cases f
  · rfl
  · simp [Flavor.casefoldParts, List.map_take]

/-- Case-folding parts preserves length. -/
theorem casefoldParts_length (f : Flavor) (l : List PStr) :
    (f.casefoldParts l).length = l.length := by
  cases f <;> simp [Flavor.casefoldParts]

/-- The source's truncate-and-compare `casefoldComp` decides exactly the
case-folded sequence-prefix relation. -/
theorem casefoldComp_iff_cfPfx (f : Flavor) (tp op : List PStr) :
    casefoldComp f tp op = true ↔ cfPfx f op tp := by
  rw [casefoldComp, cfPfx]
  by_cases hlen : op.length > tp.length
  · rw [if_pos hlen]
    constructor
    · intro hc
      exact absurd hc (by simp)
    · rintro ⟨zs, hz⟩
      have := congrArg List.length hz
      simp [casefoldParts_length] at this
      omega
  · simp only [if_neg hlen, beq_iff_eq]
    constructor
    · intro he
      refine ⟨(f.casefoldParts tp).drop op.length, ?_⟩
      rw [casefoldParts_take] at he
      have hl : op.length = (f.casefoldParts op).length := (casefoldParts_length f op).symm
      calc f.casefoldParts op ++ (f.casefoldParts tp).drop op.length
          = (f.casefoldParts tp).take op.length ++ (f.casefoldParts tp).drop op.length := by
            rw [he]
        _ = f.casefoldParts tp := List.take_append_drop _ _
    · rintro ⟨zs, hz⟩
      rw [casefoldParts_take, ← hz]
      have hl : op.length = (f.casefoldParts op).length := (casefoldParts_length f op).symm
      rw [hl, List.take_left]

/-- The raw value of `RelativeTo` once the empty-argument guard has
passed, as a single conditional expression. -/
theorem relativeTo_val (p : PurePath) (others : List PStr) (h : others ≠ []) :
    p.relativeTo others =
      (if (parsePure p.flavor others).absParts.length = 0 then
        (if p.drive ≠ [] ∨ p.root ≠ [] then .error .notRelative
         else .ok ⟨p.flavor, [],
            (if (parsePure p.flavor others).absParts.length ≠ 1 then [] else p.root),
            p.absParts.drop (parsePure p.flavor others).absParts.length⟩)
       else if ¬ casefoldComp p.flavor p.absParts (parsePure p.flavor others).absParts then
         .error .notRelative
       else .ok ⟨p.flavor, [],
          (if (parsePure p.flavor others).absParts.length ≠ 1 then [] else p.root),
          p.absParts.drop (parsePure p.flavor others).absParts.length⟩) := by
  rw [PurePath.relativeTo, if_neg h]

/-- C4 amended: `RelativeTo` fails with the not-relative error whenever
the other path's normalized sequence (anchor included, drive and root as
separate leading elements) is not a case-folded prefix of this path's;
and on success the result is the remaining suffix of this path's
sequence with the drive cleared and the root cleared — unless the other
path's sequence consists of exactly one element (a bare drive or a
single segment), in which case this path's root is kept. -/
theorem relativeTo_failure_and_suffix (p : PurePath) (others : List PStr) (h : others ≠ []) :
    (¬ cfPfx p.flavor (parsePure p.flavor others).absParts p.absParts →
      p.relativeTo others = .error .notRelative) ∧
    (∀ q, p.relativeTo others = .ok q →
      q.drive = [] ∧
      q.root = (if (parsePure p.flavor others).absParts.length = 1 then p.root else []) ∧
      q.parts = p.absParts.drop (parsePure p.flavor others).absParts.length) := by
  rw [relativeTo_val p others h]
  by_cases h0 : (parsePure p.flavor others).absParts.length = 0
  · have htA : (parsePure p.flavor others).absParts = [] := List.length_eq_zero.mp h0
    constructor
    · intro hnp
      exfalso
      exact hnp ⟨p.flavor.casefoldParts p.absParts, by rw [htA]; cases hf : p.flavor <;>
        simp [Flavor.casefoldParts]⟩
    · intro q hq
      rw [if_pos h0] at hq
      by_cases ha : p.drive ≠ [] ∨ p.root ≠ []
      · rw [if_pos ha] at hq
        cases hq
      · rw [if_neg ha] at hq
        cases hq
        refine ⟨rfl, ?_, rfl⟩
        rw [h0]
        simp
  · constructor
    · intro hnp
      rw [if_neg h0]
      rw [if_pos]
      intro hcomp
      exact hnp ((casefoldComp_iff_cfPfx p.flavor p.absParts _).mp hcomp)
    · intro q hq
      rw [if_neg h0] at hq
      by_cases hcomp : casefoldComp p.flavor p.absParts (parsePure p.flavor others).absParts = true
      · rw [if_neg (by simpa using hcomp)] at hq
        cases hq
        refine ⟨rfl, ?_, rfl⟩
        by_cases h1 : (parsePure p.flavor others).absParts.length = 1 <;> simp [h1]
      · rw [if_pos (by simpa using hcomp)] at hq
        cases hq

/-- C4 counterexample: for `p = /a/b` and `other = /` (POSIX), the matched
prefix is the other path's whole sequence `["", "/"]`, whose
concatenation is exactly `p`'s anchor and nothing beyond it; yet the
result's root is cleared (the call returns the relative `a/b`), contrary
to the claim that the root survives when the matched prefix is exactly
the anchor alone.  The root is kept only when the other path's sequence
has a single element. -/
theorem relativeTo_root_cleared_on_anchor_counterexample :
    (parsePure .posix [chars "/"]).absParts = [[], ['/']] ∧
    [] ++ ['/'] =
      (parsePure .posix [chars "/a/b"]).drive ++ (parsePure .posix [chars "/a/b"]).root ∧
    (parsePure .posix [chars "/a/b"]).root = ['/'] ∧
    (parsePure .posix [chars "/a/b"]).relativeTo [chars "/"] =
      .ok ⟨.posix, [], [], [chars "a", chars "b"]⟩ := by decide

/-- Witness for `relativeTo_failure_and_suffix` at `p = a/b`,
`other = a` (POSIX). -/
theorem relativeTo_failure_and_suffix_witness :
    ([chars "a"] ≠ ([] : List PStr)) ∧
    ((¬ cfPfx (parsePure .posix [chars "a/b"]).flavor
        (parsePure (parsePure .posix [chars "a/b"]).flavor [chars "a"]).absParts
        (parsePure .posix [chars "a/b"]).absParts →
      (parsePure .posix [chars "a/b"]).relativeTo [chars "a"] = .error .notRelative) ∧
    (∀ q, (parsePure .posix [chars "a/b"]).relativeTo [chars "a"] = .ok q →
      q.drive = [] ∧
      q.root = (if (parsePure (parsePure .posix [chars "a/b"]).flavor [chars "a"]).absParts.length = 1
                then (parsePure .posix [chars "a/b"]).root else []) ∧
      q.parts = (parsePure .posix [chars "a/b"]).absParts.drop
          (parsePure (parsePure .posix [chars "a/b"]).flavor [chars "a"]).absParts.length)) :=
  ⟨by decide, relativeTo_failure_and_suffix (parsePure .posix [chars "a/b"]) [chars "a"] (by decide)⟩

/-- No token produced by `splitOnSep` contains the separator. -/
theorem splitOnSep_not_mem (c : Char) (s : PStr) : ∀ t ∈ splitOnSep c s, c ∉ t := by
  induction s with
  | nil =>
      intro t ht
      simp [splitOnSep] at ht
      simp [ht]
  | cons x xs ih =>
      intro t ht
      rw [splitOnSep] at ht
      by_cases hx : x = c
      · rw [if_pos hx] at ht
        rcases List.mem_cons.mp ht with h | h
        · simp [h]
        · exact ih t h
      · rw [if_neg hx] at ht
        have hne := splitOnSep_ne_nil c xs
        cases hs : splitOnSep c xs with
        | nil => exact absurd hs hne
        | cons t0 ts =>
            rw [hs] at ht
            rcases List.mem_cons.mp ht with h | h
            · subst h
              intro hmem
              rcases List.mem_cons.mp hmem with h | h
              · exact hx h.symm
              · exact ih t0 (hs ▸ List.mem_cons_self t0 ts) h
            · exact ih t (hs ▸ List.mem_cons.mpr (Or.inr h))

/-- Every token emitted by the source tokenizer is non-empty, is not the
single dot, and contains no separator. -/
theorem goTokens_mem (c : Char) (s : PStr) :
    ∀ t ∈ goTokens c s, keepTok t ∧ c ∉ t := by
  intro t ht
  rw [goTokens_eq_specTokenize, specTokenize] at ht
  have h1 := List.of_mem_filter ht
  have h2 := List.mem_of_mem_filter ht
  exact ⟨by simpa [keepTokB] using h1, splitOnSep_not_mem c s t h2⟩

/-- Splitting a string that contains no separator yields that string as
the single token. -/
theorem splitOnSep_of_not_mem (c : Char) (t : PStr) (h : c ∉ t) : splitOnSep c t = [t] := by
  induction t with
  | nil => rfl
  | cons x xs ih =>
      have hx : ¬ x = c := fun hc => h (by simp [hc])
      rw [splitOnSep, if_neg hx, ih (fun hm => h (List.mem_cons.mpr (Or.inr hm)))]

/-- Splitting after a separator-free block peels off that block. -/
theorem splitOnSep_block (c : Char) (a b : PStr) (ha : c ∉ a) :
    splitOnSep c (a ++ c :: b) = a :: splitOnSep c b := by
  induction a with
  | nil => simp [splitOnSep]
  | cons x xs ih =>
      have hx : ¬ x = c := fun hc => ha (by simp [hc])
      rw [List.cons_append, splitOnSep, if_neg hx,
        ih (fun hm => ha (List.mem_cons.mpr (Or.inr hm)))]

/-- Splitting the separator-join of separator-free tokens recovers the
tokens. -/
theorem splitOnSep_joinSep (c : Char) (ts : List PStr) (hne : ts ≠ [])
    (h : ∀ t ∈ ts, c ∉ t) : splitOnSep c (joinSep c ts) = ts := by
  induction ts with
  | nil => exact absurd rfl hne
  | cons t rest ih =>
      cases rest with
      | nil =>
          rw [joinSep]
          exact splitOnSep_of_not_mem c t (h t (List.mem_cons_self t []))
      | cons t2 rest2 =>
          have hih := ih (List.cons_ne_nil t2 rest2)
            (fun x hx => h x (List.mem_cons.mpr (Or.inr hx)))
          have hj : joinSep c (t :: t2 :: rest2) = t ++ c :: joinSep c (t2 :: rest2) := rfl
          rw [hj, splitOnSep_block c t _ (h t (List.mem_cons_self t _)), hih]

/-- Tokenizing the separator-join of well-formed tokens recovers them. -/
theorem specTokenize_joinSep (c : Char) (ts : List PStr) (hne : ts ≠ [])
    (h : ∀ t ∈ ts, keepTok t ∧ c ∉ t) : specTokenize c (joinSep c ts) = ts := by
  rw [specTokenize, splitOnSep_joinSep c ts hne (fun t ht => (h t ht).2)]
  exact List.filter_eq_self.mpr fun t ht => by simpa [keepTokB] using (h t ht).1


/-- POSIX `SplitRoot` produces no drive and only the three root forms. -/
theorem posixSplitRoot_shape (s : PStr) :
    (posixSplitRoot s).1 = [] ∧
    ((posixSplitRoot s).2.1 = [] ∨ (posixSplitRoot s).2.1 = ['/'] ∨
      (posixSplitRoot s).2.1 = ['/', '/']) := by
  simp only [posixSplitRoot]
  split_ifs <;> simp

/-- A step whose input supplies neither drive nor root only appends the
remainder's tokens. -/
theorem parseStep_unanchored (f : Flavor) (acc : ParseAcc) (s : PStr)
    (h1 : (f.splitRoot (substAlt f s)).1 = [])
    (h2 : (f.splitRoot (substAlt f s)).2.1 = []) :
    parsePartsStep f acc s =
      ⟨acc.drive, acc.root, acc.parts ++ goTokens f.sep (f.splitRoot (substAlt f s)).2.2⟩ := by
  by_cases hs : s = []
  · subst hs
    rw [parsePartsStep, if_pos rfl, splitRoot_substAlt_nil]
    simp [goTokens, goTokensGo, keepTok]
  · rw [parsePartsStep, if_neg hs]
    simp [h1, h2]

/-- One POSIX parsing step preserves the invariant. -/
theorem posixAcc_step (a : ParseAcc) (s : PStr) (h : PosixAcc a) :
    PosixAcc (parsePartsStep .posix a s) := by
  have h1 : (Flavor.posix.splitRoot (substAlt .posix s)).1 = [] :=
    (posixSplitRoot_shape s).1
  have htoks := goTokens_mem Flavor.posix.sep
    (Flavor.posix.splitRoot (substAlt .posix s)).2.2
  obtain ⟨hd, hrest⟩ := h
  rcases hpr : (Flavor.posix.splitRoot (substAlt .posix s)).2.1 with _ | ⟨c0, pr'⟩
  · rw [parseStep_unanchored .posix a s h1 hpr]
    refine ⟨hd, ?_⟩
    rcases hrest with ⟨hr, hp⟩ | ⟨hr, rest, hparts, hrest2⟩
    · refine Or.inl ⟨hr, fun t ht => ?_⟩
      rcases List.mem_append.mp ht with hmem | hmem
      · exact hp t hmem
      · exact htoks t hmem
    · refine Or.inr ⟨hr,
        rest ++ goTokens Flavor.posix.sep (Flavor.posix.splitRoot (substAlt .posix s)).2.2,
        by simp [hparts], fun t ht => ?_⟩
      rcases List.mem_append.mp ht with hmem | hmem
      · exact hrest2 t hmem
      · exact htoks t hmem
  · have h2 : (Flavor.posix.splitRoot (substAlt .posix s)).2.1 ≠ [] := by
      rw [hpr]; exact List.cons_ne_nil _ _
    rw [parseStep_rootOnly_aux .posix a s h1 h2]
    have hshape : (Flavor.posix.splitRoot (substAlt .posix s)).2.1 = ['/'] ∨
        (Flavor.posix.splitRoot (substAlt .posix s)).2.1 = ['/', '/'] := by
      rcases (posixSplitRoot_shape s).2 with hcase | hcase | hcase
      · exact absurd hcase h2
      · exact Or.inl hcase
      · exact Or.inr hcase
    refine ⟨hd, Or.inr ⟨hshape, goTokens Flavor.posix.sep _, by rw [hd]; simp, fun t ht => htoks t ht⟩⟩

/-- Fold preservation of a predicate. -/
theorem foldl_preserve {α β : Type} (P : α → Prop) (g : α → β → α)
    (H : ∀ a b, P a → P (g a b)) : ∀ (l : List β) (a : α), P a → P (l.foldl g a) := by
  intro l
  induction l with
  | nil => intro a ha; exact ha
  | cons x xs ih => intro a ha; exact ih (g a x) (H a x ha)

/-- Every POSIX parse satisfies the invariant. -/
theorem parseParts_posixAcc (inputs : List PStr) : PosixAcc (parseParts .posix inputs) := by
  rw [parseParts]
  exact foldl_preserve PosixAcc (parsePartsStep .posix)
    (fun a b ha => posixAcc_step a b ha) inputs ⟨[], [], []⟩ ⟨rfl, Or.inl ⟨rfl, by simp⟩⟩

/-- Dropping leading separators of a string that does not start with one
changes nothing. -/
theorem dropWhile_sep_of_headD (s : PStr) (h : s.headD ' ' ≠ '/') :
    s.dropWhile (fun c => c = '/') = s := by
  cases s with
  | nil => rfl
  | cons x xs =>
      have hx : x ≠ '/' := by simpa using h
      simp [List.dropWhile, hx]

/-- The separator-join of a list whose head is a separator-free non-empty
token starts with that token's head character. -/
theorem joinSep_head (c : Char) (x : Char) (t : PStr) (ts : List PStr) :
    joinSep c ((x :: t) :: ts) = x :: (t ++ (match ts with | [] => [] | _ :: _ => c :: joinSep c ts)) := by
  cases ts <;> simp [joinSep]

/-- Splitting the root of an unanchored token join returns it whole. -/
theorem posixSplitRoot_join_unanchored (ts : List PStr) (hne : ts ≠ [])
    (h : ∀ t ∈ ts, keepTok t ∧ '/' ∉ t) :
    posixSplitRoot (joinSep '/' ts) = ([], [], joinSep '/' ts) := by
  obtain ⟨t0, ts0, rfl⟩ : ∃ t0 ts0, ts = t0 :: ts0 := by
    cases hq : ts
    · exact absurd hq hne
    · exact ⟨_, _, rfl⟩
  obtain ⟨x, t0', rfl⟩ : ∃ x t0', t0 = x :: t0' := by
    have := (h t0 (List.mem_cons_self _ _)).1.1
    cases hq : t0
    · exact absurd hq this
    · exact ⟨_, _, rfl⟩
  have hx : x ≠ '/' := by
    intro hc
    exact (h _ (List.mem_cons_self _ _)).2 (by simp [hc])
  rw [posixSplitRoot, if_neg]
  rw [joinSep_head]
  simp [hx]

/-- Splitting the root of a root followed by a token join: the root comes
back and the join is the remainder. -/
theorem posixSplitRoot_root_join (r : PStr) (hr : r = ['/'] ∨ r = ['/', '/'])
    (j : PStr) (hj : j.headD ' ' ≠ '/') :
    posixSplitRoot (r ++ j) = ([], r, j) := by
  have hdw : j.dropWhile (fun c => c = '/') = j := dropWhile_sep_of_headD j hj
  rcases hr with rfl | rfl
  · rw [posixSplitRoot, if_pos (by cases j <;> simp)]
    have h1 : (['/'] ++ j).dropWhile (fun c => c = '/') = j := by
      simpa [List.dropWhile] using hdw
    simp only [h1]
    split_ifs with hcond
    · exfalso
      simp only [List.length_append, List.length_cons, List.length_nil] at hcond
      omega
    · rfl
  · rw [posixSplitRoot, if_pos (by cases j <;> simp)]
    have h1 : (['/', '/'] ++ j).dropWhile (fun c => c = '/') = j := by
      simpa [List.dropWhile] using hdw
    simp only [h1]
    split_ifs with hcond
    · rfl
    · exfalso
      apply hcond
      simp only [List.length_append, List.length_cons, List.length_nil]
      omega

/-- Re-parsing the string form of any triple satisfying the POSIX
invariant reproduces the triple. -/
theorem posix_reparse (a : ParseAcc) (h : PosixAcc a) :
    parseParts .posix [(PurePath.mk .posix a.drive a.root a.parts).str] = a := by
  obtain ⟨ad, ar, ap⟩ := a
  have h2 : ad = [] ∧ ((ar = [] ∧ ∀ t ∈ ap, keepTok t ∧ '/' ∉ t) ∨
      ((ar = ['/'] ∨ ar = ['/', '/']) ∧
        ∃ rest, ap = ar :: rest ∧ ∀ t ∈ rest, keepTok t ∧ '/' ∉ t)) := h
  obtain ⟨hd, hrest⟩ := h2
  subst hd
  rcases hrest with ⟨hr, hp⟩ | ⟨hr, rest, hparts, hrest2⟩
  · subst hr
    by_cases hps : ap = []
    · subst hps
      decide
    · have hstr : (PurePath.mk .posix [] [] ap).str = joinSep '/' ap := by
        rw [PurePath.str]
        simp [hps, Flavor.sep]
      rw [hstr]
      have hone : parseParts .posix [joinSep '/' ap] =
          parsePartsStep .posix ⟨[], [], []⟩ (joinSep '/' ap) := rfl
      rw [hone]
      have hsplit : posixSplitRoot (joinSep '/' ap) = ([], [], joinSep '/' ap) :=
        posixSplitRoot_join_unanchored ap hps hp
      have h1 : (Flavor.posix.splitRoot (substAlt .posix (joinSep '/' ap))).1 = [] := by
        show (posixSplitRoot (joinSep '/' ap)).1 = []
        rw [hsplit]
      have h2 : (Flavor.posix.splitRoot (substAlt .posix (joinSep '/' ap))).2.1 = [] := by
        show (posixSplitRoot (joinSep '/' ap)).2.1 = []
        rw [hsplit]
      have hrem : (Flavor.posix.splitRoot (substAlt .posix (joinSep '/' ap))).2.2 =
          joinSep '/' ap := by
        show (posixSplitRoot (joinSep '/' ap)).2.2 = joinSep '/' ap
        rw [hsplit]
      rw [parseStep_unanchored .posix ⟨[], [], []⟩ _ h1 h2, hrem]
      have htoks : goTokens Flavor.posix.sep (joinSep '/' ap) = ap := by
        show goTokens '/' (joinSep '/' ap) = ap
        rw [goTokens_eq_specTokenize]
        exact specTokenize_joinSep '/' ap hps hp
      rw [htoks]
      rfl
  · subst hparts
    have harne : ar ≠ [] := by rcases hr with rfl | rfl <;> simp
    have hstr : (PurePath.mk .posix [] ar (ar :: rest)).str = ar ++ joinSep '/' rest := by
      rw [PurePath.str]
      simp [harne, Flavor.sep]
    rw [hstr]
    rcases rest with _ | ⟨t0, rest'⟩
    · rcases hr with rfl | rfl
      · show parseParts .posix [['/'] ++ joinSep '/' []] = _
        simp only [joinSep, List.append_nil]
        decide
      · show parseParts .posix [['/', '/'] ++ joinSep '/' []] = _
        simp only [joinSep, List.append_nil]
        decide
    · have ht0 := hrest2 t0 (List.mem_cons_self _ _)
      obtain ⟨x, t0', rfl⟩ : ∃ x t0', t0 = x :: t0' := by
        cases hq : t0
        · exact absurd hq ht0.1.1
        · exact ⟨_, _, rfl⟩
      have hxne : x ≠ '/' := fun hc => ht0.2 (by simp [hc])
      have hj : (joinSep '/' ((x :: t0') :: rest')).headD ' ' ≠ '/' := by
        rw [joinSep_head]
        simpa using hxne
      have hsplit := posixSplitRoot_root_join ar hr (joinSep '/' ((x :: t0') :: rest')) hj
      have h1 : (Flavor.posix.splitRoot
          (substAlt .posix (ar ++ joinSep '/' ((x :: t0') :: rest')))).1 = [] := by
        show (posixSplitRoot (ar ++ joinSep '/' ((x :: t0') :: rest'))).1 = []
        rw [hsplit]
      have h2 : (Flavor.posix.splitRoot
          (substAlt .posix (ar ++ joinSep '/' ((x :: t0') :: rest')))).2.1 ≠ [] := by
        show (posixSplitRoot (ar ++ joinSep '/' ((x :: t0') :: rest'))).2.1 ≠ []
        rw [hsplit]
        exact harne
      have hone : parseParts .posix [ar ++ joinSep '/' ((x :: t0') :: rest')] =
          parsePartsStep .posix ⟨[], [], []⟩ (ar ++ joinSep '/' ((x :: t0') :: rest')) := rfl
      rw [hone, parseStep_rootOnly_aux .posix ⟨[], [], []⟩ _ h1 h2]
      have hroot : (Flavor.posix.splitRoot
          (substAlt .posix (ar ++ joinSep '/' ((x :: t0') :: rest')))).2.1 = ar := by
        show (posixSplitRoot (ar ++ joinSep '/' ((x :: t0') :: rest'))).2.1 = ar
        rw [hsplit]
      have hrem : (Flavor.posix.splitRoot
          (substAlt .posix (ar ++ joinSep '/' ((x :: t0') :: rest')))).2.2 =
          joinSep '/' ((x :: t0') :: rest') := by
        show (posixSplitRoot (ar ++ joinSep '/' ((x :: t0') :: rest'))).2.2 = _
        rw [hsplit]
      rw [hroot, hrem]
      have htoks : goTokens Flavor.posix.sep (joinSep '/' ((x :: t0') :: rest')) =
          (x :: t0') :: rest' := by
        show goTokens '/' (joinSep '/' ((x :: t0') :: rest')) = _
        rw [goTokens_eq_specTokenize]
        exact specTokenize_joinSep '/' _ (List.cons_ne_nil _ _) hrest2
      rw [htoks]
      rfl

/-- C7 amended: for the POSIX flavor the parse–stringify–parse round trip
is the identity on parses; the Windows flavor violates the original
claim (see the counterexample on input `//a/`). -/
theorem posix_parse_stringify_parse (inputs : List PStr) :
    parsePure .posix [(parsePure .posix inputs).str] = parsePure .posix inputs := by
  have h := posix_reparse (parseParts .posix inputs) (parseParts_posixAcc inputs)
  simp only [parsePure]
  rw [h]
